import Mathlib

/-!
Shallow embedding of `src/multiFileparse.c`: a multithreaded scanner that
partitions numbered log files `access<i>.log` across `num_threads` POSIX
threads, extracts the first token of each line with `strtok(line, " ")`,
and counts distinct tokens in a mutex-guarded string map.

Keys are modelled as `List Char` (C strings).  The strmap library
(`sm_exists` / `sm_put`, not part of this repository's sources) is
modelled as finite-set membership and insertion, following its published
contract; a NULL key is `none`, for which `sm_exists` reports absent and
`sm_put` inserts nothing.
-/

/-- The shared deduplication state: the strmap `map` together with the
global counter `num_distinct_IPs` (lines 21, 25 of the source). -/
structure AddrState where
  map : Finset (List Char)
  count : Nat
deriving DecidableEq

/-- State at program start: empty map, `num_distinct_IPs = 0`. -/
def initState : AddrState := ⟨∅, 0⟩

/-- Modelled from the spec: `sm_exists` and `sm_put` live in strmap.c,
which is not among the sources; per §3/§4.1 the store is "a mapping from
address-string to presence (value is irrelevant; existence is the
signal)", so they are membership test and insertion on a finite set of
keys.  This is their combined use at lines 176-182: under the mutex,
check; if absent, put and `num_distinct_IPs++`. -/
def insertIfAbsent (st : AddrState) (ip : List Char) : AddrState :=
  if ip ∈ st.map then st
  else ⟨insert ip st.map, st.count + 1⟩

/-- `strtok(line, " ")` for the first call on a line: skip leading
spaces; NULL (`none`) if nothing remains, otherwise the maximal run of
non-space characters.  The delimiter set is exactly `" "` (line 175). -/
def strtok (line : List Char) : Option (List Char) :=
  match line.dropWhile (fun c => c = ' ') with
  | [] => none
  | rest => some (rest.takeWhile (fun c => c ≠ ' '))

/-- The body of the `getline` loop (lines 173-183): tokenize, lock,
check, conditionally put and increment, unlock.  When `strtok` returns
NULL the key handed to the missing strmap functions is NULL; modelled
from the spec, which says such a line "yields no candidate and is
skipped", the state is left unchanged. -/
def processLine (st : AddrState) (line : List Char) : AddrState :=
  match strtok line with
  | none => st
  | some tok => insertIfAbsent st tok

/-- Lines 173-183: fold `processLine` over all lines of one open file. -/
def processFile (st : AddrState) (lines : List (List Char)) : AddrState :=
  lines.foldl processLine st

/-- The per-worker file-index range (lines 139-159).  `num = num_files /
num_threads` (C truncating division); the worker starts at `tid*num + 1`
and stops after `tid*num + num`, except the last worker (`tid =
num_threads - 1`) which stops after `num_files`. -/
def workerIndices (tid totalWorkers totalFiles : Nat) : List Nat :=
  let q := totalFiles / totalWorkers
  let start := tid * q + 1
  let stop := if tid = totalWorkers - 1 then totalFiles else tid * q + q
  List.range' start (stop + 1 - start)

/-- A file system: maps a file index `i` to the lines of
`./<dir>access<i>.log`, or `none` when `fopen` fails. -/
def FileSys : Type := Nat → Option (List (List Char))

/-- One worker's output: the shared state it leaves behind and its
per-file log, `(index, opened?)` for every index it attempted. -/
structure WorkerOut where
  st : AddrState
  log : List (Nat × Bool)
deriving DecidableEq

/-- Lines 160-188: one iteration of the worker loop at index `i`.  A
file that cannot be opened is logged as a miss and contributes nothing;
an opened file is scanned line by line, then logged. -/
def stepIndex (fs : FileSys) (out : WorkerOut) (i : Nat) : WorkerOut :=
  match fs i with
  | none => ⟨out.st, out.log ++ [(i, false)]⟩
  | some lines => ⟨processFile out.st lines, out.log ++ [(i, true)]⟩

/-- Lines 150-194: the whole of `readFiles` for one thread.  If the
worker's own `opendir` fails (`dirOk = false`) the entire loop is
skipped; otherwise it walks its index range. -/
def workerRun (fs : FileSys) (dirOk : Bool) (tid totalWorkers totalFiles : Nat)
    (st : AddrState) : WorkerOut :=
  if dirOk then (workerIndices tid totalWorkers totalFiles).foldl (stepIndex fs) ⟨st, []⟩
  else ⟨st, []⟩

/-- Lines 100-123: the coordinator runs all `totalWorkers` workers over
the shared state (serialized here; every `insertIfAbsent` is atomic
under `map_lock`, so any concurrent schedule is some serialization of
the same per-worker insert sequences). -/
def coordRun (fs : FileSys) (totalWorkers totalFiles : Nat) : AddrState :=
  (List.range totalWorkers).foldl
    (fun st tid => (workerRun fs true tid totalWorkers totalFiles st).st) initState

/-- Whitespace in the sense of the spec's tokenizer description ("splits
on whitespace", "only care about whitespace-delimited content").  Used
only to state the claimed behaviour, for comparison with `strtok`. -/
def isWsChar (c : Char) : Bool :=
  c = ' ' || c = '\t' || c = '\n' || c = '\r'

/-- The spec's claimed tokenizer: the first whitespace-delimited token
of a line, `none` when the line holds no such token.  Stated from the
spec's words, to be compared against the source's `strtok` call. -/
def firstWsToken (line : List Char) : Option (List Char) :=
  match line.dropWhile isWsChar with
  | [] => none
  | rest => some (rest.takeWhile (fun c => !isWsChar c))

/-- The effect of one loop iteration (lines 160-188) on the shared
state alone: a file that cannot be opened leaves the state untouched. -/
def processIndex (fs : FileSys) (st : AddrState) (i : Nat) : AddrState :=
  match fs i with
  | none => st
  | some lines => processFile st lines

/-- `isspace` on the characters C's `atoi` skips: space, tab, newline,
vertical tab, form feed, carriage return. -/
def isCSpace (c : Char) : Bool :=
  c = ' ' || c = '\t' || c = '\n' || c = Char.ofNat 11 || c = Char.ofNat 12 || c = '\r'

/-- The numeric value of the leading run of decimal digits. -/
def atoiDigits (s : List Char) : Nat :=
  (s.takeWhile (fun c => c.isDigit)).foldl (fun acc c => 10 * acc + (c.toNat - 48)) 0

/-- C's `atoi` (line 57): skip leading whitespace, read an optional
sign, then the leading digits; 0 when there are none. -/
def atoi (s : List Char) : Int :=
  match s.dropWhile isCSpace with
  | '-' :: rest => -(atoiDigits rest : Int)
  | '+' :: rest => (atoiDigits rest : Int)
  | rest => (atoiDigits rest : Int)

/-- What a whole run leaves observable: the process exit code and the
printed final count (`none` when the run dies before the scan). -/
structure RunResult where
  exitCode : Int
  output : Option Nat
deriving DecidableEq

/-- Lines 40-131 of `main`, in the source's order of checks: argument
count, `opendir` on the directory, `atoi` on the thread-count argument;
any failure returns -1 before a single thread is created.  On success
all threads run over the shared state and the final `num_distinct_IPs`
is printed, the process ending with status 0 via `pthread_exit`. -/
def mainRun (argc : Nat) (threadArg : List Char) (dirOk : Bool)
    (totalFiles : Nat) (fs : FileSys) : RunResult :=
  if argc < 3 then ⟨-1, none⟩
  else if 3 < argc then ⟨-1, none⟩
  else if !dirOk then ⟨-1, none⟩
  else if atoi threadArg ≤ 0 then ⟨-1, none⟩
  else ⟨0, some (coordRun fs (atoi threadArg).toNat totalFiles).count⟩

/-- The map after folding `insertIfAbsent` over a list of keys is the
original map together with every key of the list. -/
lemma fold_insert_map (l : List (List Char)) (st : AddrState) :
    (l.foldl insertIfAbsent st).map = st.map ∪ l.toFinset := by
  induction l generalizing st with
  | nil => simp
  | cons a l ih =>
    rw [List.foldl_cons, ih]
    have hmap : (insertIfAbsent st a).map = insert a st.map := by
      unfold insertIfAbsent
      split
      · next h => exact (Finset.insert_eq_self.mpr h).symm
      · rfl
    rw [hmap, List.toFinset_cons, Finset.insert_union, Finset.union_insert]

/-- Folding `insertIfAbsent` raises the counter by exactly the number of
new keys it adds to the map. -/
lemma fold_insert_count (l : List (List Char)) (st : AddrState) :
    (l.foldl insertIfAbsent st).count + st.map.card
      = st.count + (l.foldl insertIfAbsent st).map.card := by
  induction l generalizing st with
  | nil => simp
  | cons a l ih =>
    rw [List.foldl_cons]
    have step : (insertIfAbsent st a).count + st.map.card
        = st.count + (insertIfAbsent st a).map.card := by
      unfold insertIfAbsent
      split
      · rfl
      · next h => simp only [Finset.card_insert_of_not_mem h]; omega
    have h2 := ih (insertIfAbsent st a)
    omega

/-- The map only grows along a fold of `insertIfAbsent`. -/
lemma fold_insert_map_mono (l : List (List Char)) (st : AddrState) :
    st.map ⊆ (l.foldl insertIfAbsent st).map := by
  rw [fold_insert_map]; exact Finset.subset_union_left

/-- C1.  Under the single `map_lock`, every check-and-insert is one
indivisible unit, so any concurrent schedule of the workers' inserts is
a serialization of the combined multiset of submitted addresses.  For
every such serialization the final `num_distinct_IPs` equals the number
of distinct addresses in the multiset — independent of the
interleaving, since the result depends only on the multiset. -/
theorem final_count_eq_card_of_multiset (m : Multiset (List Char))
    (l : List (List Char)) (h : (l : Multiset (List Char)) = m) :
    (l.foldl insertIfAbsent initState).count = m.toFinset.card := by
  subst h
  have h1 := fold_insert_count l initState
  have h2 := fold_insert_map l initState
  simp only [initState, Finset.card_empty, Finset.empty_union] at h1 h2
  rw [List.toFinset_coe, show initState = ⟨∅, 0⟩ from rfl, ← h2]
  omega

/-- Witness for C1 at a concrete interleaving of a concrete multiset. -/
theorem final_count_eq_card_of_multiset_witness :
    ((["ab".data, "cd".data, "ab".data] : List (List Char)) : Multiset (List Char))
        = ({"ab".data, "cd".data, "ab".data} : Multiset (List Char))
    ∧ ((["ab".data, "cd".data, "ab".data] : List (List Char)).foldl insertIfAbsent initState).count
        = ({"ab".data, "cd".data, "ab".data} : Multiset (List Char)).toFinset.card := by
  refine ⟨by rfl, final_count_eq_card_of_multiset _ _ (by rfl)⟩

/-- C5.  Along any sequence of insert-if-absent operations the map only
grows (no key is ever removed) and `num_distinct_IPs` never decreases;
starting from the initial state, the counter always equals the number of
distinct keys ever inserted. -/
theorem addrState_invariant :
    (∀ (st : AddrState) (l : List (List Char)),
        st.map ⊆ (l.foldl insertIfAbsent st).map
        ∧ st.count ≤ (l.foldl insertIfAbsent st).count)
    ∧ ∀ l : List (List Char),
        (l.foldl insertIfAbsent initState).count
          = (l.foldl insertIfAbsent initState).map.card := by
  constructor
  · intro st l
    refine ⟨fold_insert_map_mono l st, ?_⟩
    have h1 := fold_insert_count l st
    have h2 := Finset.card_le_card (fold_insert_map_mono l st)
    omega
  · intro l
    have h1 := fold_insert_count l initState
    simp only [show initState = ⟨∅, 0⟩ from rfl, Finset.card_empty] at h1 ⊢
    omega

/-- Inserting an address already present leaves the state unchanged. -/
lemma insertIfAbsent_mem {st : AddrState} {a : List Char} (h : a ∈ st.map) :
    insertIfAbsent st a = st := by
  unfold insertIfAbsent
  rw [if_pos h]

/-- C6.  Inserting the same address `k ≥ 1` times from a state where it
is absent raises `num_distinct_IPs` by exactly 1 and records the key
once; in any state already containing the address, a further insert of
it changes nothing (so interleaved operations cannot make it count
twice, the key being never removed). -/
theorem insertIfAbsent_idempotent (st : AddrState) (a : List Char) (k : Nat)
    (hk : 1 ≤ k) (ha : a ∉ st.map) :
    ((List.replicate k a).foldl insertIfAbsent st).count = st.count + 1
    ∧ ((List.replicate k a).foldl insertIfAbsent st).map = insert a st.map
    ∧ ∀ st' : AddrState, a ∈ st'.map → insertIfAbsent st' a = st' := by
  have hmap : ((List.replicate k a).foldl insertIfAbsent st).map = insert a st.map := by
    rw [fold_insert_map, List.toFinset_replicate_of_ne_zero (by omega),
      Finset.union_comm, ← Finset.insert_eq]
  refine ⟨?_, hmap, fun st' h => insertIfAbsent_mem h⟩
  have h1 := fold_insert_count (List.replicate k a) st
  rw [hmap, Finset.card_insert_of_not_mem ha] at h1
  omega

/-- Witness for C6 with two inserts of a concrete address. -/
theorem insertIfAbsent_idempotent_witness :
    (1 ≤ 2 ∧ "ab".data ∉ initState.map)
    ∧ ((List.replicate 2 "ab".data).foldl insertIfAbsent initState).count
        = initState.count + 1 :=
  ⟨⟨by decide, by decide⟩,
    (insertIfAbsent_idempotent initState "ab".data 2 (by decide) (by decide)).1⟩

/-- Membership in a worker's index range, written with the loop's own
start/stop bounds. -/
lemma mem_workerIndices (tid W F j : Nat) :
    j ∈ workerIndices tid W F ↔
      tid * (F / W) + 1 ≤ j
        ∧ j ≤ if tid = W - 1 then F else tid * (F / W) + F / W := by
  simp only [workerIndices, List.mem_range'_1]
  by_cases h : tid = W - 1 <;> simp only [h, if_pos, if_neg, if_true, if_false] <;>
    · generalize tid * (F / W) = s
      omega

/-- C2.  For `1 ≤ W ≤ totalFiles` and `perWorker = totalFiles / W`, each
non-final worker `i` holds exactly the indices of
`[i*perWorker + 1, (i+1)*perWorker]`, the final worker holds exactly
`[(W-1)*perWorker + 1, totalFiles]`, and every index of
`[1, totalFiles]` lies in exactly one worker's range. -/
theorem workerIndices_partition (W F : Nat) (hW : 1 ≤ W) (hWF : W ≤ F) :
    (∀ i j : Nat, i < W - 1 →
        (j ∈ workerIndices i W F ↔
          i * (F / W) + 1 ≤ j ∧ j ≤ (i + 1) * (F / W)))
    ∧ (∀ j : Nat,
        j ∈ workerIndices (W - 1) W F ↔
          (W - 1) * (F / W) + 1 ≤ j ∧ j ≤ F)
    ∧ ∀ j : Nat, 1 ≤ j → j ≤ F → ∃! i : Nat, i < W ∧ j ∈ workerIndices i W F := by
  have hW0 : 0 < W := hW
  have hq : 0 < F / W := (Nat.one_le_div_iff hW0).mpr hWF
  refine ⟨?_, ?_, ?_⟩
  · intro i j hi
    rw [mem_workerIndices, if_neg (by omega), Nat.succ_mul]
  · intro j
    rw [mem_workerIndices, if_pos rfl]
  · intro j hj1 hjF
    have hdiv := Nat.div_add_mod (j - 1) (F / W)
    rw [Nat.mul_comm] at hdiv
    have hmod : (j - 1) % (F / W) < F / W := Nat.mod_lt _ hq
    by_cases hc : (j - 1) / (F / W) < W - 1
    · -- `j` belongs to the non-final worker `(j-1)/perWorker`
      refine ⟨(j - 1) / (F / W), ⟨by omega, ?_⟩, ?_⟩
      · rw [mem_workerIndices, if_neg (by omega)]
        omega
      · rintro i ⟨hiW, hmem⟩
        rw [mem_workerIndices] at hmem
        by_cases hi : i = W - 1
        · exfalso
          rw [if_pos hi] at hmem
          have hle : W - 1 ≤ (j - 1) / (F / W) := by
            rw [Nat.le_div_iff_mul_le hq]
            subst hi
            omega
          omega
        · rw [if_neg hi] at hmem
          refine (Nat.div_eq_of_lt_le ?_ ?_).symm
          · omega
          · rw [Nat.succ_mul]
            omega
    · -- `j` belongs to the final worker
      refine ⟨W - 1, ⟨by omega, ?_⟩, ?_⟩
      · rw [mem_workerIndices, if_pos rfl]
        have h1 : (W - 1) * (F / W) ≤ (j - 1) / (F / W) * (F / W) :=
          Nat.mul_le_mul_right _ (by omega)
        have h2 : (j - 1) / (F / W) * (F / W) ≤ j - 1 := Nat.div_mul_le_self _ _
        omega
      · rintro i ⟨hiW, hmem⟩
        rw [mem_workerIndices] at hmem
        by_cases hi : i = W - 1
        · exact hi
        · exfalso
          rw [if_neg hi] at hmem
          have hlt : (j - 1) / (F / W) < i + 1 := by
            rw [Nat.div_lt_iff_lt_mul hq, Nat.succ_mul]
            omega
          omega

/-- Witness for C2 at 2 workers over 5 files: index 3 lies in exactly
one worker's range. -/
theorem workerIndices_partition_witness :
    (1 ≤ 2 ∧ 2 ≤ 5) ∧ ∃! i : Nat, i < 2 ∧ 3 ∈ workerIndices i 2 5 :=
  ⟨⟨by decide, by decide⟩,
    (workerIndices_partition 2 5 (by decide) (by decide)).2.2 3 (by decide) (by decide)⟩

/-- C3.  When `W > totalFiles`, `perWorker = 0`: every non-final worker
gets an empty range, and the final worker's range is exactly
`[1, totalFiles]`, covering each file index exactly once (the range is
duplicate-free). -/
theorem workerIndices_degenerate (W F : Nat) (hW : 1 ≤ W) (hF : F < W) :
    (∀ i : Nat, i < W - 1 → workerIndices i W F = [])
    ∧ workerIndices (W - 1) W F = List.range' 1 F
    ∧ (∀ j : Nat, j ∈ workerIndices (W - 1) W F ↔ 1 ≤ j ∧ j ≤ F)
    ∧ (workerIndices (W - 1) W F).Nodup := by
  have hq : F / W = 0 := Nat.div_eq_of_lt hF
  have hfinal : workerIndices (W - 1) W F = List.range' 1 F := by
    simp only [workerIndices, hq, Nat.mul_zero, Nat.zero_add, if_true,
      Nat.add_sub_cancel]
  refine ⟨?_, hfinal, ?_, ?_⟩
  · intro i hi
    simp only [workerIndices, hq, Nat.mul_zero, Nat.zero_add, Nat.add_zero,
      if_neg (show i ≠ W - 1 by omega), Nat.sub_self, List.range'_zero]
  · intro j
    rw [hfinal, List.mem_range'_1]
    omega
  · rw [hfinal]
    exact List.nodup_range' _ _

/-- Witness for C3 at 5 workers over 3 files. -/
theorem workerIndices_degenerate_witness :
    (1 ≤ 5 ∧ 3 < 5) ∧ workerIndices 0 5 3 = [] :=
  ⟨⟨by decide, by decide⟩,
    (workerIndices_degenerate 5 3 (by decide) (by decide)).1 0 (by decide)⟩

/-- Counterexample for C4.  `strtok(line, " ")` splits on the space
character only, so on the line `"10.0.0.1\n"` the submitted token keeps
the trailing newline and differs from the first whitespace-delimited
token the claim promises. -/
theorem strtok_not_whitespace_token :
    strtok "10.0.0.1\n".data = some "10.0.0.1\n".data
    ∧ firstWsToken "10.0.0.1\n".data = some "10.0.0.1".data
    ∧ strtok "10.0.0.1\n".data ≠ firstWsToken "10.0.0.1\n".data := by
  decide

/-- C4 (amended).  Per file, the worker submits to the dedup structure
exactly the first space-delimited token of each line — newline and tab
are not delimiters, so a token with no following space keeps its
trailing newline — and a line with no space-delimited token yields no
candidate and is skipped. -/
theorem processFile_space_tokens (lines : List (List Char)) (st : AddrState) :
    processFile st lines = (lines.filterMap strtok).foldl insertIfAbsent st := by
  induction lines generalizing st with
  | nil => rfl
  | cons l ls ih =>
    have hfold : processFile st (l :: ls) = processFile (processLine st l) ls := rfl
    rcases h : strtok l with _ | t
    · have hline : processLine st l = st := by
        unfold processLine; rw [h]
      rw [hfold, hline, List.filterMap_cons_none h]
      exact ih st
    · have hline : processLine st l = insertIfAbsent st t := by
        unfold processLine; rw [h]
      rw [hfold, hline, List.filterMap_cons_some h, List.foldl_cons]
      exact ih (insertIfAbsent st t)

/-- The shared-state component of the worker loop does not depend on
the log it accumulates. -/
lemma foldl_stepIndex_st (fs : FileSys) (idxs : List Nat) (out : WorkerOut) :
    (idxs.foldl (stepIndex fs) out).st = idxs.foldl (processIndex fs) out.st := by
  induction idxs generalizing out with
  | nil => rfl
  | cons i is ih =>
    rw [List.foldl_cons, List.foldl_cons, ih]
    congr 1
    unfold stepIndex processIndex
    cases fs i <;> rfl

/-- C7.  A file index whose `fopen` fails is logged as a miss and
contributes nothing: the state is unchanged at that index, and the scan
of the rest of the range proceeds exactly as if the index were absent
from the range. -/
theorem missing_file_skipped (fs : FileSys) (i : Nat) (hi : fs i = none) :
    (∀ out : WorkerOut, stepIndex fs out i = ⟨out.st, out.log ++ [(i, false)]⟩)
    ∧ ∀ (st : AddrState) (idxs : List Nat),
        (idxs.foldl (stepIndex fs) ⟨st, []⟩).st
          = ((idxs.filter (fun j => j != i)).foldl (stepIndex fs) ⟨st, []⟩).st := by
  refine ⟨fun out => by unfold stepIndex; rw [hi], ?_⟩
  intro st idxs
  rw [foldl_stepIndex_st, foldl_stepIndex_st]
  induction idxs generalizing st with
  | nil => rfl
  | cons j js ih =>
    rw [List.foldl_cons, List.filter_cons]
    by_cases hj : j = i
    · subst hj
      rw [if_neg (by simp), show processIndex fs st j = st from by
        unfold processIndex; rw [hi]]
      exact ih st
    · rw [if_pos (by simp [hj]), List.foldl_cons]
      exact ih (processIndex fs st j)

/-- Witness for C7: a missing file leaves the state alone and the rest
of a concrete range is still scanned. -/
theorem missing_file_skipped_witness :
    stepIndex (fun _ => none) ⟨initState, []⟩ 3 = ⟨initState, [(3, false)]⟩
    ∧ (([3, 5] : List Nat).foldl (stepIndex (fun _ => none)) ⟨initState, []⟩).st
        = ((([3, 5] : List Nat).filter (fun j => j != 3)).foldl
            (stepIndex (fun _ => none)) ⟨initState, []⟩).st :=
  ⟨(missing_file_skipped (fun _ => none) 3 rfl).1 ⟨initState, []⟩,
    (missing_file_skipped (fun _ => none) 3 rfl).2 initState [3, 5]⟩

/-- Counterexample for C8.  With 3 files and 5 workers, the number of
workers whose range is empty is 4, not the claimed 3. -/
theorem threeFiles_fiveWorkers_claim_false :
    ((List.range 5).countP (fun i => decide (workerIndices i 5 3 = []))) = 4
    ∧ ((List.range 5).countP (fun i => decide (workerIndices i 5 3 = []))) ≠ 3 := by
  decide

/-- C8 (amended).  With 3 files and 5 workers, 4 workers get empty
ranges, the final worker's range is all of `[1, 3]`, and the run
produces exactly the state of a single-worker run over the same
directory. -/
theorem threeFiles_fiveWorkers_result (fs : FileSys) :
    ((List.range 5).countP (fun i => decide (workerIndices i 5 3 = []))) = 4
    ∧ workerIndices 4 5 3 = [1, 2, 3]
    ∧ coordRun fs 5 3 = coordRun fs 1 3 := by
  refine ⟨by decide, by decide, ?_⟩
  rfl

/-- C9.  A wrong argument count, an unopenable directory, or a
thread-count argument that `atoi` reads as non-positive makes the
process return -1 with no scan at all; otherwise the workers run and
the final distinct count is printed with exit status 0. -/
theorem main_arg_checks (argc : Nat) (arg : List Char) (dirOk : Bool)
    (F : Nat) (fs : FileSys) :
    ((argc ≠ 3 ∨ dirOk = false ∨ atoi arg ≤ 0) →
        (mainRun argc arg dirOk F fs).exitCode ≠ 0
        ∧ (mainRun argc arg dirOk F fs).output = none)
    ∧ (argc = 3 → dirOk = true → 0 < atoi arg →
        (mainRun argc arg dirOk F fs).exitCode = 0
        ∧ (mainRun argc arg dirOk F fs).output
            = some (coordRun fs (atoi arg).toNat F).count) := by
  unfold mainRun
  constructor
  · intro h
    split_ifs with h1 h2 h3 h4 <;>
      first
        | exact ⟨by norm_num, rfl⟩
        | · exfalso
            rcases h with h | h | h
            · omega
            · rw [h] at h3; exact h3 rfl
            · exact absurd h (by omega)
  · intro ha hd hpos
    subst ha; subst hd
    split_ifs with h1 h2 h3 h4 <;>
      first
        | exact ⟨rfl, rfl⟩
        | omega
        | simp_all

/-- Witness for C9: a successful run with 2 threads over an empty
directory prints count 0 and exits 0. -/
theorem main_arg_checks_witness :
    (3 = 3 ∧ (true : Bool) = true ∧ (0 : Int) < atoi "2".data)
    ∧ (mainRun 3 "2".data true 0 (fun _ => none)).exitCode = 0
    ∧ (mainRun 3 "2".data true 0 (fun _ => none)).output
        = some (coordRun (fun _ => none) (atoi "2".data).toNat 0).count :=
  ⟨⟨rfl, rfl, by decide⟩,
    (main_arg_checks 3 "2".data true 0 (fun _ => none)).2 rfl rfl (by decide)⟩

/-- C10.  A worker whose own `opendir` fails performs no insert, emits
no per-file log entry, leaves the shared state untouched, and finishes
exactly like a worker whose range is empty. -/
theorem worker_opendir_fail (fs : FileSys) (tid W F : Nat) (st : AddrState) :
    workerRun fs false tid W F st = ⟨st, []⟩
    ∧ workerRun fs false tid W F st
        = ([] : List Nat).foldl (stepIndex fs) ⟨st, []⟩ :=
  ⟨rfl, rfl⟩

example : strtok "1.2.3.4 - - x".data = some "1.2.3.4".data := by decide
example : strtok "  ".data = none := by decide
example : workerIndices 0 2 5 = [1, 2] := by decide
example : workerIndices 1 2 5 = [3, 4, 5] := by decide
example : workerIndices 0 5 3 = [] := by decide
example : workerIndices 4 5 3 = [1, 2, 3] := by decide
